import Mathlib

/-!
Verification of the calculator pipeline in `src/calculator.c`
(tokenizer → recursive-descent parser → tree-walking evaluator).

The C source is shallowly embedded: each C function becomes an executable
Lean definition with the same name, global cursor/stack state becomes
explicit state passing, and fallible functions return `Except`.  C `int`
values are modelled as unbounded `Int` (no claim below concerns 32-bit
overflow, which is undefined behaviour in C for signed `int` anyway); C
integer division `/` is modelled by `Int.tdiv`, which truncates toward
zero exactly as C division does.
-/

namespace Calculator

/-- C `isspace` on the characters that can occur in a source line:
space, tab, newline, vertical tab, form feed, carriage return. -/
def is_space_c (c : Char) : Bool :=
  c = ' ' || c = '\t' || c = '\n' || c = '\x0b' || c = '\x0c' || c = '\r'

/-- C `isdigit`. -/
def is_digit_c (c : Char) : Bool :=
  '0' ≤ c && c ≤ '9'

/-- The end-of-file marker byte: `read_line` stores `(char)-1` (byte 0xFF)
into `source_file_line[0]` when `read` returns 0.  In the tokenizer's
`switch` this byte compares equal to `EOF`. -/
def eof_marker : Char := '\xFF'

/-- `token_type_e` / `token_t` of the C source.  Only `token_number`
carries a lexeme (`token->lexeme` is set only for numbers), so the other
token kinds are plain constructors. -/
inductive Token where
  | number (lexeme : List Char)
  | plus
  | minus
  | times
  | divide
  | bracket_open
  | bracket_close
  | end_of_expression
  | end_of_file
deriving DecidableEq, Repr

/-- The data printed by the lexer's error report (the `default:` branch of
`tokenize_source_line_and_add_to_list`): the offending character and its
index, the context snippet line, and the `~`/`^` marker line, each exactly
as the C loops emit them (the ANSI colour escapes around the offending
character are not modelled; the offending character sits at index
`column - snippet_start` of `snippet`). -/
structure LexDiag where
  offending : Char
  column : Nat
  snippet_start : Nat
  snippet_end : Nat
  snippet : List Char
  marker : List Char
deriving DecidableEq, Repr

/-- Builds the diagnostic for an unexpected character: `pre` is the
reversed prefix of the line before the offending character `c`, and `cs`
the rest of the line after it.  Mirrors lines 224–253 of the C source:
`snippet_start = i > 5 ? i-5 : 0`,
`snippet_end = (i+5 < occupied-1) ? i+5 : occupied-1`,
the snippet line prints indices `snippet_start..i-1`, then `c`, then
`i+1..snippet_end-1` (the upper loop bound is strict), and the marker
line prints one `~`/`^` for every index `snippet_start..snippet_end`
(inclusive). -/
def lex_error_diag (pre : List Char) (c : Char) (cs : List Char) : LexDiag :=
  let i := pre.length
  let occupied := pre.length + 1 + cs.length
  let sStart := if i > 5 then i - 5 else 0
  let sEnd := if i + 5 < occupied - 1 then i + 5 else occupied - 1
  { offending := c
    column := i
    snippet_start := sStart
    snippet_end := sEnd
    snippet := (pre.take (i - sStart)).reverse ++ c :: cs.take (sEnd - 1 - i)
    marker := (List.range (sEnd + 1 - sStart)).map fun j =>
      if sStart + j = i then '^' else '~' }

/-- C `strndup(s, n)`: at most `n` characters, stopping at a NUL byte.
Reads past the end of the occupied line hit the zero-initialised tail of
the 1024-byte global buffer, i.e. a NUL, which is what running off the
end of the list models. -/
def strndup_c (s : List Char) (n : Nat) : List Char :=
  (s.take n).takeWhile (· ≠ '\x00')

/-- The single-character cases of the tokenizer's `switch`: the EOF
marker byte, the six operator/bracket characters, and the newline (which
reaches the switch because the whitespace skip exempts `'\n'`).  `none`
falls through to the `default:` branch (digit run or lex error). -/
def char_token (c : Char) : Option Token :=
  if c = eof_marker then some .end_of_file
  else if c = '+' then some .plus
  else if c = '-' then some .minus
  else if c = '*' then some .times
  else if c = '/' then some .divide
  else if c = '(' then some .bracket_open
  else if c = ')' then some .bracket_close
  else if c = '\n' then some .end_of_expression
  else none

/-- The loop body of `tokenize_source_line_and_add_to_list`.  `pre` is the
reversed prefix of the line already consumed (so the current index is
`pre.length`), `lexlen` is the C variable `lexeme_length` — initialised
to 1 once per line and, notably, never reset between number tokens — and
`skip` consumes the remaining characters of a digit run already swallowed
by the inner `while(isdigit(...))` loop (the C code advances `i` over the
whole run in one iteration; consuming those digits one at a time is the
same traversal). -/
def tokenize_aux (pre : List Char) : List Char → Nat → Nat →
    Except LexDiag (List Token)
  | [], _, _ => .ok []
  | c :: cs, lexlen, skip =>
    if 0 < skip then
      tokenize_aux (c :: pre) cs lexlen (skip - 1)
    else if is_space_c c && c ≠ '\n' then
      tokenize_aux (c :: pre) cs lexlen 0
    else
      match char_token c with
      | some tok => (tokenize_aux (c :: pre) cs lexlen 0).map (tok :: ·)
      | none =>
        if is_digit_c c then
          let runLen := 1 + (cs.takeWhile is_digit_c).length
          let lexlen2 := lexlen + runLen - 1
          let lexeme := strndup_c (c :: cs) lexlen2
          (tokenize_aux (c :: pre) cs lexlen2 (runLen - 1)).map
            (Token.number lexeme :: ·)
        else
          .error (lex_error_diag pre c cs)

/-- `tokenize_source_line_and_add_to_list`: tokenizes one line (the
occupied bytes of `source_file_line`, trailing `'\n'` or EOF marker
included), starting with `lexeme_length = 1`. -/
def tokenize_source_line_and_add_to_list (line : List Char) :
    Except LexDiag (List Token) :=
  tokenize_aux [] line 1 0

/-- The operator part of `enum ast_type` (`ast_add`, `ast_sub`, `ast_div`,
`ast_mul`); the `ast_num` member of the C enum is the `Ast.num` constructor
below, so it needs no member here (`execution_engine_do_operation` is only
ever called with an operator type). -/
inductive AstOp where
  | add
  | sub
  | div
  | mul
deriving DecidableEq, Repr

/-- `ast_t`: a leaf (`ast_num` with its `value`) or an internal operator
node with exactly two children (`children[0]` the left, `children[1]` the
right).  The C union makes the two children of an internal node always
present, which the inductive captures directly. -/
inductive Ast where
  | num (value : Int)
  | binop (op : AstOp) (left right : Ast)
deriving DecidableEq, Repr

/-- The value of a list of decimal digits read in base 10, accumulated
most significant digit first, as `strtol` does before clamping. -/
def digits_val (s : List Char) : Int :=
  s.foldl (fun a c => 10 * a + ((c.toNat : Int) - 48)) 0

/-- `LONG_MAX` on the LP64 platforms this program targets (Linux,
`unistd.h`): `long` is 64 bits. -/
def LONG_MAX : Int := 9223372036854775807

/-- `LONG_MIN` on LP64. -/
def LONG_MIN : Int := -9223372036854775808

/-- `strtol(str, 0, 10)`: skip leading whitespace, read an optional sign,
then consume the longest run of decimal digits (zero digits give 0).  A
value outside the range of `long` is clamped to `LONG_MAX` / `LONG_MIN`
(C standard behaviour, with `errno = ERANGE`, which the program never
inspects). -/
def strtol_c (s : List Char) : Int :=
  let s1 := s.dropWhile is_space_c
  match s1 with
  | [] => 0
  | c :: rest =>
    if c = '-' then max (-(digits_val (rest.takeWhile is_digit_c))) LONG_MIN
    else if c = '+' then min (digits_val (rest.takeWhile is_digit_c)) LONG_MAX
    else min (digits_val ((c :: rest).takeWhile is_digit_c)) LONG_MAX

/-- The conversion of a `long` value to the 32-bit `int` that stores it:
implementation-defined in C; modelled as the two's-complement wrap modulo
`2^32` that gcc and clang perform. -/
def int_of_long (v : Int) : Int :=
  (v + 2147483648) % 4294967296 - 2147483648

/-- `str_to_int(str)` as its single call site uses it: the macro expands
to `strtol(str, 0, 10)` (a `long`), and the result is immediately stored
into the `int` field `(*tree)->value` (calculator.c line 518), so the
value kept is the `long` result narrowed to `int`. -/
def str_to_int (s : List Char) : Int :=
  int_of_long (strtol_c s)

/-- The base-10 value of the longest leading digit prefix of a string. -/
def digit_prefix_val (s : List Char) : Int :=
  digits_val (s.takeWhile is_digit_c)

/-- The parser's failure cases.  The first three are the three
`SyntaxError` messages the C source prints.  `empty_stream` models
calling the parser on a stream with no tokens at all, where the C cursor
would hand back a stale (or null) `parser_active_token`; the tokenizer
never produces such a stream for the lines `read_line` returns.
`out_of_fuel` is an artifact of the fuel-based embedding of the C
recursion: it models non-termination (which the C parser exhibits only on
token streams that lack their trailing end-of-expression/end-of-file
token, never on tokenizer output), and every theorem below supplies
enough fuel that it does not arise. -/
inductive SynError where
  | expected_end_of_expression
  | expected_closing_bracket
  | expected_integer_or_open
  | empty_stream
  | out_of_fuel
deriving DecidableEq, Repr

/-- A parser production's result: the built subtree, the active token
after the production returns, and the tokens still ahead of the cursor. -/
abbrev ParseOut := Ast × Token × List Token

/-- `parser_get_next_token` on the explicit cursor `(active, rest)`: when
tokens remain, the head of `rest` becomes active; when the stream is
exhausted (`parser_next_token == NULL`), the active token stays what it
was — the C cursor keeps returning the last token forever. -/
def parser_get_next_token (cur : Token) (rest : List Token) :
    Token × List Token :=
  match rest with
  | [] => (cur, [])
  | t :: ts => (t, ts)

mutual

/-- `parser_parse_expression` (productions 1–3): parse an
`add_expression`, then require the active token to be end-of-expression
or end-of-file, and advance past it. -/
def parser_parse_expression : Nat → Token → List Token →
    Except SynError ParseOut
  | 0, _, _ => .error .out_of_fuel
  | fuel+1, cur, rest =>
    match parser_parse_add_expression fuel cur rest with
    | .error e => .error e
    | .ok (t, c1, r1) =>
      match c1 with
      | .end_of_expression =>
        let (c2, r2) := parser_get_next_token c1 r1
        .ok (t, c2, r2)
      | .end_of_file =>
        let (c2, r2) := parser_get_next_token c1 r1
        .ok (t, c2, r2)
      | _ => .error .expected_end_of_expression

/-- `parser_parse_add_expression` (productions 4–6): a
`sub_expression`, then the left-folding `while(token_type_is(token_plus))`
loop, embedded as `parser_add_loop`. -/
def parser_parse_add_expression : Nat → Token → List Token →
    Except SynError ParseOut
  | 0, _, _ => .error .out_of_fuel
  | fuel+1, cur, rest =>
    match parser_parse_sub_expression fuel cur rest with
    | .error e => .error e
    | .ok (t, c1, r1) => parser_add_loop fuel t c1 r1

/-- The `while` loop of `parser_parse_add_expression`: while the active
token is `+`, consume it, parse the next `sub_expression`, and fold the
running tree into a new `ast_add` node as its left child. -/
def parser_add_loop : Nat → Ast → Token → List Token →
    Except SynError ParseOut
  | 0, _, _, _ => .error .out_of_fuel
  | fuel+1, t, cur, rest =>
    match cur with
    | .plus =>
      let (c1, r1) := parser_get_next_token cur rest
      match parser_parse_sub_expression fuel c1 r1 with
      | .error e => .error e
      | .ok (t2, c2, r2) => parser_add_loop fuel (.binop .add t t2) c2 r2
    | _ => .ok (t, cur, rest)

/-- `parser_parse_sub_expression` (productions 7–9). -/
def parser_parse_sub_expression : Nat → Token → List Token →
    Except SynError ParseOut
  | 0, _, _ => .error .out_of_fuel
  | fuel+1, cur, rest =>
    match parser_parse_mul_expression fuel cur rest with
    | .error e => .error e
    | .ok (t, c1, r1) => parser_sub_loop fuel t c1 r1

/-- The `while` loop of `parser_parse_sub_expression`: left-folds
`ast_sub` nodes while the active token is `-`. -/
def parser_sub_loop : Nat → Ast → Token → List Token →
    Except SynError ParseOut
  | 0, _, _, _ => .error .out_of_fuel
  | fuel+1, t, cur, rest =>
    match cur with
    | .minus =>
      let (c1, r1) := parser_get_next_token cur rest
      match parser_parse_mul_expression fuel c1 r1 with
      | .error e => .error e
      | .ok (t2, c2, r2) => parser_sub_loop fuel (.binop .sub t t2) c2 r2
    | _ => .ok (t, cur, rest)

/-- `parser_parse_mul_expression` (productions 10–12). -/
def parser_parse_mul_expression : Nat → Token → List Token →
    Except SynError ParseOut
  | 0, _, _ => .error .out_of_fuel
  | fuel+1, cur, rest =>
    match parser_parse_div_expression fuel cur rest with
    | .error e => .error e
    | .ok (t, c1, r1) => parser_mul_loop fuel t c1 r1

/-- The `while` loop of `parser_parse_mul_expression`: left-folds
`ast_mul` nodes while the active token is `*`. -/
def parser_mul_loop : Nat → Ast → Token → List Token →
    Except SynError ParseOut
  | 0, _, _, _ => .error .out_of_fuel
  | fuel+1, t, cur, rest =>
    match cur with
    | .times =>
      let (c1, r1) := parser_get_next_token cur rest
      match parser_parse_div_expression fuel c1 r1 with
      | .error e => .error e
      | .ok (t2, c2, r2) => parser_mul_loop fuel (.binop .mul t t2) c2 r2
    | _ => .ok (t, cur, rest)

/-- `parser_parse_div_expression` (productions 13–15). -/
def parser_parse_div_expression : Nat → Token → List Token →
    Except SynError ParseOut
  | 0, _, _ => .error .out_of_fuel
  | fuel+1, cur, rest =>
    match parser_parse_unit_expression fuel cur rest with
    | .error e => .error e
    | .ok (t, c1, r1) => parser_div_loop fuel t c1 r1

/-- The `while` loop of `parser_parse_div_expression`: left-folds
`ast_div` nodes while the active token is `/`. -/
def parser_div_loop : Nat → Ast → Token → List Token →
    Except SynError ParseOut
  | 0, _, _, _ => .error .out_of_fuel
  | fuel+1, t, cur, rest =>
    match cur with
    | .divide =>
      let (c1, r1) := parser_get_next_token cur rest
      match parser_parse_unit_expression fuel c1 r1 with
      | .error e => .error e
      | .ok (t2, c2, r2) => parser_div_loop fuel (.binop .div t t2) c2 r2
    | _ => .ok (t, cur, rest)

/-- `parser_parse_unit_expression` (productions 16 & 17): a bracketed
`add_expression` (the closing bracket required, then the cursor
advanced), or a number token, whose lexeme `str_to_int` converts into the
`ast_num` leaf's value; anything else is a syntax error. -/
def parser_parse_unit_expression : Nat → Token → List Token →
    Except SynError ParseOut
  | 0, _, _ => .error .out_of_fuel
  | fuel+1, cur, rest =>
    match cur with
    | .bracket_open =>
      let (c1, r1) := parser_get_next_token cur rest
      match parser_parse_add_expression fuel c1 r1 with
      | .error e => .error e
      | .ok (t, c2, r2) =>
        match c2 with
        | .bracket_close =>
          let (c3, r3) := parser_get_next_token c2 r2
          .ok (t, c3, r3)
        | _ => .error .expected_closing_bracket
    | .number lex =>
      let (c1, r1) := parser_get_next_token cur rest
      .ok (.num (str_to_int lex), c1, r1)
    | _ => .error .expected_integer_or_open

end

/-- `parse_token_stream_into_ast` (production 0): register the stream,
pull the first token, and — unless it is already `token_end_of_file`, in
which case the tree slot stays absent (`none`) and the parse succeeds —
run `parser_parse_expression` on it.  An entirely empty stream would make
the C cursor return a stale token; it cannot reach this function through
the tokenizer and is mapped to `SynError.empty_stream`. -/
def parse_token_stream_into_ast (toks : List Token) (fuel : Nat) :
    Except SynError (Option Ast) :=
  match toks with
  | [] => .error .empty_stream
  | t :: ts =>
    match t with
    | .end_of_file => .ok none
    | _ =>
      match parser_parse_expression fuel t ts with
      | .error e => .error e
      | .ok (tree, _, _) => .ok (some tree)

/-- The three `RuntimeError` diagnostics of the evaluator. -/
inductive RuntimeError where
  | division_by_zero
  | stack_overflow
  | stack_underflow
deriving DecidableEq, Repr

/-- The evaluation stack `callstack` (capacity `MAX_CALLSTACK_DEPTH = 32`),
modelled as the list of its occupied slots, most recently pushed first:
`callstack_top = 32 - length`, `callstack_is_full` is `length = 32`,
`callstack_is_empty` is `length = 0`. -/
def MAX_CALLSTACK_DEPTH : Nat := 32

/-- `execution_engine_do_operation`: pop the right operand, pop the left
operand, apply the operator, push the result.  Division by zero fails
with `RuntimeError: Division by Zero` before dividing; otherwise C `/` on
`int` truncates toward zero, which is `Int.tdiv`.  The C pops perform no
emptiness check — popping with fewer than two values on the stack would
read stale memory; that undefined behaviour is modelled as a
`stack_underflow` error and proved unreachable below. -/
def execution_engine_do_operation (op : AstOp) (st : List Int) :
    Except RuntimeError (List Int) :=
  match st with
  | right :: left :: rest =>
    match op with
    | .add => .ok ((left + right) :: rest)
    | .sub => .ok ((left - right) :: rest)
    | .mul => .ok ((left * right) :: rest)
    | .div =>
      if right = 0 then .error .division_by_zero
      else .ok (Int.tdiv left right :: rest)
  | _ => .error .stack_underflow

/-- `execution_engine_process_ast_node`: depth-first post-order walk.  A
`Num` leaf first checks `callstack_is_full()` — the push fails with
`RuntimeError: StackOverflow` when the stack already holds 32 values —
then pushes its literal value; an operator node processes its left child,
then its right child, then combines the two results. -/
def execution_engine_process_ast_node : Ast → List Int →
    Except RuntimeError (List Int)
  | .num v, st =>
    if st.length = MAX_CALLSTACK_DEPTH then .error .stack_overflow
    else .ok (v :: st)
  | .binop op l r, st =>
    match execution_engine_process_ast_node l st with
    | .error e => .error e
    | .ok st1 =>
      match execution_engine_process_ast_node r st1 with
      | .error e => .error e
      | .ok st2 => execution_engine_do_operation op st2

/-- `execution_engine`: run the traversal on a (possibly absent) tree.
The result is `(outcome, final stack)`: `ok none` prints nothing (a NULL
tree is skipped entirely), `ok (some v)` prints the popped result `v`,
and an error prints its diagnostic.  `callstack_clear()` runs
unconditionally at the end of the call — except on the StackUnderflow
early return, where the branch condition `callstack_is_empty()` means the
stack is already empty — so the final stack is `[]` on every path. -/
def execution_engine (tree : Option Ast) (st : List Int) :
    Except RuntimeError (Option Int) × List Int :=
  match tree with
  | none => (.ok none, [])
  | some t =>
    match execution_engine_process_ast_node t st with
    | .error e => (.error e, [])
    | .ok st2 =>
      match st2 with
      | [] => (.error .stack_underflow, [])
      | v :: _ => (.ok (some v), [])

/-- The number of simultaneously pending operand values the post-order
traversal of a tree needs beyond those already on the stack: a leaf
pushes one value; an operator node first needs its left child's maximum,
then — with the left result parked on the stack — one more than its right
child's maximum. -/
def max_pending : Ast → Nat
  | .num _ => 1
  | .binop _ l r => max (max_pending l) (1 + max_pending r)

/-- A failure of any stage of the pipeline for one line. -/
inductive PipeError where
  | lex_fail (d : LexDiag)
  | parse_fail (e : SynError)
  | runtime_fail (e : RuntimeError)
deriving DecidableEq, Repr

/-- The parser fuel used by `run_line`; any bound that the concrete lines
of the claims cannot exhaust will do (the C recursion's depth is linear
in the token count). -/
def parse_fuel (toks : List Token) : Nat :=
  10 * toks.length + 10

/-- One iteration of the Driver loop in `main` on one source line:
tokenize it, parse the token stream, and run the execution engine on the
resulting tree slot starting from the empty stack (the global `callstack`
is empty at every invocation: it starts empty and every invocation ends
with it cleared).  `ok none` is the silent no-op, `ok (some v)` the
printed result. -/
def run_line (line : List Char) : Except PipeError (Option Int) :=
  match tokenize_source_line_and_add_to_list line with
  | .error d => .error (.lex_fail d)
  | .ok toks =>
    match parse_token_stream_into_ast toks (parse_fuel toks) with
    | .error e => .error (.parse_fail e)
    | .ok tree =>
      match (execution_engine tree []).1 with
      | .error e => .error (.runtime_fail e)
      | .ok v => .ok v

/-! ### Evaluator invariants -/

theorem max_pending_pos (t : Ast) : 1 ≤ max_pending t := by
  cases t with
  | num v => simp [max_pending]
  | binop op l r =>
    simp only [max_pending]
    omega

/-- A successful traversal of one node pushes exactly one value on top of
the stack it started from, leaving the rest untouched. -/
theorem process_ok_cons (t : Ast) :
    ∀ st st', execution_engine_process_ast_node t st = .ok st' →
      ∃ v, st' = v :: st := by
  induction t with
  | num v =>
    intro st st' h
    simp only [execution_engine_process_ast_node] at h
    split at h
    · exact absurd h (by simp)
    · exact ⟨v, (Except.ok.injEq _ _ ▸ h).symm⟩
  | binop op l r ihl ihr =>
    intro st st' h
    simp only [execution_engine_process_ast_node] at h
    cases hl : execution_engine_process_ast_node l st with
    | error e => rw [hl] at h; simp only at h; exact absurd h (by simp)
    | ok st1 =>
      rw [hl] at h
      simp only at h
      cases hr : execution_engine_process_ast_node r st1 with
      | error e => rw [hr] at h; simp only at h; exact absurd h (by simp)
      | ok st2 =>
        rw [hr] at h
        simp only at h
        obtain ⟨vl, rfl⟩ := ihl st st1 hl
        obtain ⟨vr, rfl⟩ := ihr _ st2 hr
        cases op with
        | add => exact ⟨vl + vr, by simpa [execution_engine_do_operation] using h.symm⟩
        | sub => exact ⟨vl - vr, by simpa [execution_engine_do_operation] using h.symm⟩
        | mul => exact ⟨vl * vr, by simpa [execution_engine_do_operation] using h.symm⟩
        | div =>
          simp only [execution_engine_do_operation] at h
          split at h
          · exact absurd h (by simp)
          · exact ⟨Int.tdiv vl vr, by simpa using h.symm⟩

/-- The traversal never produces the `stack_underflow` sentinel: every
pop inside `execution_engine_do_operation` finds its two operands,
because each child's successful traversal left exactly one value. -/
theorem process_no_underflow (t : Ast) :
    ∀ st, execution_engine_process_ast_node t st ≠ .error .stack_underflow := by
  induction t with
  | num v =>
    intro st h
    simp only [execution_engine_process_ast_node] at h
    split at h <;> simp_all
  | binop op l r ihl ihr =>
    intro st h
    simp only [execution_engine_process_ast_node] at h
    cases hl : execution_engine_process_ast_node l st with
    | error e =>
      rw [hl] at h
      simp only at h
      cases h
      exact ihl st hl
    | ok st1 =>
      rw [hl] at h
      simp only at h
      cases hr : execution_engine_process_ast_node r st1 with
      | error e =>
        rw [hr] at h
        simp only at h
        cases h
        exact ihr st1 hr
      | ok st2 =>
        rw [hr] at h
        simp only at h
        obtain ⟨vl, rfl⟩ := process_ok_cons l st st1 hl
        obtain ⟨vr, rfl⟩ := process_ok_cons r _ st2 hr
        cases op with
        | add => simp only [execution_engine_do_operation] at h; exact absurd h (by simp)
        | sub => simp only [execution_engine_do_operation] at h; exact absurd h (by simp)
        | mul => simp only [execution_engine_do_operation] at h; exact absurd h (by simp)
        | div =>
          simp only [execution_engine_do_operation] at h
          split at h <;> simp_all

/-- A traversal that starts within capacity and succeeds never needed
more than the 32 slots: `length st + max_pending t ≤ 32`. -/
theorem process_ok_bound (t : Ast) :
    ∀ st st', st.length ≤ MAX_CALLSTACK_DEPTH →
      execution_engine_process_ast_node t st = .ok st' →
      st.length + max_pending t ≤ MAX_CALLSTACK_DEPTH := by
  induction t with
  | num v =>
    intro st st' hle h
    simp only [execution_engine_process_ast_node] at h
    split at h
    · exact absurd h (by simp)
    · simp only [max_pending]
      omega
  | binop op l r ihl ihr =>
    intro st st' hle h
    simp only [execution_engine_process_ast_node] at h
    cases hl : execution_engine_process_ast_node l st with
    | error e => rw [hl] at h; simp only at h; exact absurd h (by simp)
    | ok st1 =>
      rw [hl] at h
      simp only at h
      cases hr : execution_engine_process_ast_node r st1 with
      | error e => rw [hr] at h; simp only at h; exact absurd h (by simp)
      | ok st2 =>
        have hbl := ihl st st1 hle hl
        obtain ⟨vl, rfl⟩ := process_ok_cons l st st1 hl
        have h1 : (vl :: st).length ≤ MAX_CALLSTACK_DEPTH := by
          have := max_pending_pos l
          simp only [List.length_cons]
          omega
        have hbr := ihr _ st2 h1 hr
        simp only [List.length_cons] at hbr
        simp only [max_pending]
        omega

/-- Conversely, a traversal whose need fits in the remaining capacity
either succeeds (pushing one value) or stops at a division by zero; it
never overflows. -/
theorem process_ok_of_bound (t : Ast) :
    ∀ st, st.length + max_pending t ≤ MAX_CALLSTACK_DEPTH →
      (∃ v, execution_engine_process_ast_node t st = .ok (v :: st)) ∨
        execution_engine_process_ast_node t st = .error .division_by_zero := by
  induction t with
  | num v =>
    intro st hle
    simp only [max_pending] at hle
    left
    exact ⟨v, by simp only [execution_engine_process_ast_node]; rw [if_neg (by omega)]⟩
  | binop op l r ihl ihr =>
    intro st hle
    simp only [max_pending] at hle
    have hll : st.length + max_pending l ≤ MAX_CALLSTACK_DEPTH := by
      have := le_max_left (max_pending l) (1 + max_pending r)
      omega
    have hrr : st.length + 1 + max_pending r ≤ MAX_CALLSTACK_DEPTH := by
      have := le_max_right (max_pending l) (1 + max_pending r)
      omega
    rcases ihl st hll with ⟨vl, hl⟩ | hl
    · rcases ihr (vl :: st) (by simpa using hrr) with ⟨vr, hr⟩ | hr
      · cases op with
        | add =>
          left
          exact ⟨vl + vr, by
            simp only [execution_engine_process_ast_node, hl, hr,
              execution_engine_do_operation]⟩
        | sub =>
          left
          exact ⟨vl - vr, by
            simp only [execution_engine_process_ast_node, hl, hr,
              execution_engine_do_operation]⟩
        | mul =>
          left
          exact ⟨vl * vr, by
            simp only [execution_engine_process_ast_node, hl, hr,
              execution_engine_do_operation]⟩
        | div =>
          by_cases hz : vr = 0
          · right
            simp only [execution_engine_process_ast_node, hl, hr,
              execution_engine_do_operation]
            rw [if_pos hz]
          · left
            exact ⟨Int.tdiv vl vr, by
              simp only [execution_engine_process_ast_node, hl, hr,
                execution_engine_do_operation]
              rw [if_neg hz]⟩
      · right
        simp only [execution_engine_process_ast_node, hl, hr]
    · right
      simp only [execution_engine_process_ast_node, hl]

/-- A traversal whose need exceeds the remaining capacity cannot succeed:
it fails with the overflow check at some leaf, unless a division by zero
on an earlier subtree aborts it first. -/
theorem process_err_of_exceed (t : Ast) :
    ∀ st, st.length ≤ MAX_CALLSTACK_DEPTH →
      MAX_CALLSTACK_DEPTH < st.length + max_pending t →
      execution_engine_process_ast_node t st = .error .stack_overflow ∨
        execution_engine_process_ast_node t st = .error .division_by_zero := by
  induction t with
  | num v =>
    intro st hle hgt
    simp only [max_pending] at hgt
    left
    simp only [execution_engine_process_ast_node]
    rw [if_pos (by omega)]
  | binop op l r ihl ihr =>
    intro st hle hgt
    simp only [max_pending] at hgt
    by_cases hexl : MAX_CALLSTACK_DEPTH < st.length + max_pending l
    · rcases ihl st hle hexl with hl | hl
      · left; simp only [execution_engine_process_ast_node, hl]
      · right; simp only [execution_engine_process_ast_node, hl]
    · have hll : st.length + max_pending l ≤ MAX_CALLSTACK_DEPTH := by omega
      rcases process_ok_of_bound l st hll with ⟨vl, hl⟩ | hl
      · have hexr : MAX_CALLSTACK_DEPTH < (vl :: st).length + max_pending r := by
          simp only [List.length_cons]
          have h1 := le_max_left (max_pending l) (1 + max_pending r)
          have h2 := le_max_right (max_pending l) (1 + max_pending r)
          rcases max_cases (max_pending l) (1 + max_pending r) with ⟨he, _⟩ | ⟨he, _⟩ <;>
            omega
        have h1 : (vl :: st).length ≤ MAX_CALLSTACK_DEPTH := by
          have := max_pending_pos l
          simp only [List.length_cons]
          omega
        rcases ihr (vl :: st) h1 hexr with hr | hr
        · left; simp only [execution_engine_process_ast_node, hl, hr]
        · right; simp only [execution_engine_process_ast_node, hl, hr]
      · right; simp only [execution_engine_process_ast_node, hl]

/-! ### Claim theorems -/

/-- C1: operator precedence.  The pipeline evaluates `2 + 3 * 4` to 14 and
`(2 + 3) * 4` to 20; for arbitrary number lexemes the parser attaches `*`
below `+` (`a + b * c` parses as `a + (b * c)`), and brackets override
that (`(a + b) * c` parses as `(a + b) * c`). -/
theorem C1_operator_precedence :
    run_line "2 + 3 * 4\n".data = .ok (some 14) ∧
    run_line "(2 + 3) * 4\n".data = .ok (some 20) ∧
    (∀ la lb lc : List Char,
      parse_token_stream_into_ast
        [.number la, .plus, .number lb, .times, .number lc,
          .end_of_expression] 80 =
        .ok (some (.binop .add (.num (str_to_int la))
          (.binop .mul (.num (str_to_int lb)) (.num (str_to_int lc)))))) ∧
    (∀ la lb lc : List Char,
      parse_token_stream_into_ast
        [.bracket_open, .number la, .plus, .number lb, .bracket_close,
          .times, .number lc, .end_of_expression] 80 =
        .ok (some (.binop .mul
          (.binop .add (.num (str_to_int la)) (.num (str_to_int lb)))
          (.num (str_to_int lc))))) :=
  ⟨rfl, rfl, fun _ _ _ => rfl, fun _ _ _ => rfl⟩

/-- C2: left-associativity.  For arbitrary number lexemes `a - b - c`
parses as the tree `(a - b) - c` and `a / b / c` as `(a / b) / c` (the
iterative folding loops `parser_sub_loop` / `parser_div_loop` always put
the running result in the left child); concretely `10 - 2 - 3` evaluates
to 5 and `100 / 10 / 2` to 5. -/
theorem C2_left_associativity :
    (∀ la lb lc : List Char,
      parse_token_stream_into_ast
        [.number la, .minus, .number lb, .minus, .number lc,
          .end_of_expression] 80 =
        .ok (some (.binop .sub
          (.binop .sub (.num (str_to_int la)) (.num (str_to_int lb)))
          (.num (str_to_int lc))))) ∧
    (∀ la lb lc : List Char,
      parse_token_stream_into_ast
        [.number la, .divide, .number lb, .divide, .number lc,
          .end_of_expression] 80 =
        .ok (some (.binop .div
          (.binop .div (.num (str_to_int la)) (.num (str_to_int lb)))
          (.num (str_to_int lc))))) ∧
    run_line "10 - 2 - 3\n".data = .ok (some 5) ∧
    run_line "100 / 10 / 2\n".data = .ok (some 5) :=
  ⟨fun _ _ _ => rfl, fun _ _ _ => rfl, rfl, rfl⟩

/-- C3: division semantics.  Evaluating a `Div` node whose operands
evaluate to `vl` and `vr` fails with `division_by_zero` when `vr = 0` and
otherwise pushes `Int.tdiv vl vr`, the quotient truncated toward zero;
concretely `7 / 2` evaluates to 3, `5 / 0` fails with
`RuntimeError: Division by Zero`, and `(7 - 10) / 2` evaluates to -1
(truncation toward zero, not flooring). -/
theorem C3_division_semantics (l r : Ast) (st : List Int) (vl vr : Int)
    (hl : execution_engine_process_ast_node l st = .ok (vl :: st))
    (hr : execution_engine_process_ast_node r (vl :: st) = .ok (vr :: vl :: st)) :
    (execution_engine_process_ast_node (.binop .div l r) st =
      if vr = 0 then .error .division_by_zero
      else .ok (Int.tdiv vl vr :: st)) ∧
    run_line "7 / 2\n".data = .ok (some 3) ∧
    run_line "5 / 0\n".data = .error (.runtime_fail .division_by_zero) ∧
    run_line "(7 - 10) / 2\n".data = .ok (some (-1)) := by
  refine ⟨?_, rfl, rfl, rfl⟩
  simp only [execution_engine_process_ast_node, hl, hr,
    execution_engine_do_operation]

/-- Witness for C3 at the concrete tree of `7 / 2`. -/
theorem C3_division_witness :
    (execution_engine_process_ast_node (.binop .div (.num 7) (.num 2)) [] =
      if (2 : Int) = 0 then .error .division_by_zero
      else .ok (Int.tdiv 7 2 :: [])) ∧
    run_line "7 / 2\n".data = .ok (some 3) ∧
    run_line "5 / 0\n".data = .error (.runtime_fail .division_by_zero) ∧
    run_line "(7 - 10) / 2\n".data = .ok (some (-1)) :=
  C3_division_semantics (.num 7) (.num 2) [] 7 2 rfl rfl

/-- C6: stack reset invariant.  Whatever tree (present or absent) and
whatever stack contents an invocation of `execution_engine` starts from,
it returns with the evaluation stack empty — on success, on
`division_by_zero`, on `stack_overflow` (and on the underflow early
return, whose branch condition already is the empty stack) — so the
outcome of any later invocation is the same as from the empty stack. -/
theorem C6_stack_reset :
    ∀ (tree : Option Ast) (st : List Int),
      (execution_engine tree st).2 = [] ∧
      ∀ t2 : Option Ast,
        execution_engine t2 (execution_engine tree st).2 =
          execution_engine t2 [] := by
  intro tree st
  have h : (execution_engine tree st).2 = [] := by
    cases tree with
    | none => rfl
    | some t =>
      simp only [execution_engine]
      cases hp : execution_engine_process_ast_node t st with
      | error e => rfl
      | ok st2 => cases st2 <;> rfl
  exact ⟨h, fun t2 => by rw [h]⟩

/-- C9: empty-stream no-op.  When the first registered token is already
`end_of_file` the parse succeeds with the tree slot left absent, and the
execution engine invoked on an absent tree prints nothing and succeeds
(and still leaves the stack cleared); the whole pipeline on the
end-of-file line is a silent success. -/
theorem C9_empty_stream_noop :
    ∀ (rest : List Token) (fuel : Nat) (st : List Int),
      parse_token_stream_into_ast (Token.end_of_file :: rest) fuel =
        .ok none ∧
      (execution_engine none st).1 = .ok none ∧
      (execution_engine none st).2 = [] ∧
      run_line [eof_marker] = .ok none :=
  fun _ _ _ => ⟨rfl, rfl, rfl, rfl⟩

/-- C7: the StackUnderflow check is defensive but unreachable.  For every
(necessarily well-formed) AST: the engine run from the empty stack never
returns `stack_underflow`; a successful traversal of any node from any
stack leaves exactly one new value on top (so after a full successful
traversal from the empty stack exactly one value remains, and the
`callstack_is_empty()` branch of `execution_engine` cannot fire); and no
pop inside `execution_engine_do_operation` ever reads from a stack
holding fewer than two values (the traversal never produces the
`stack_underflow` sentinel that models such a read). -/
theorem C7_underflow_unreachable :
    ∀ t : Ast,
      (execution_engine (some t) []).1 ≠ .error .stack_underflow ∧
      (∀ st st', execution_engine_process_ast_node t st = .ok st' →
        ∃ v, st' = v :: st) ∧
      (∀ st, execution_engine_process_ast_node t st ≠
        .error .stack_underflow) := by
  intro t
  refine ⟨?_, process_ok_cons t, process_no_underflow t⟩
  intro h
  cases hp : execution_engine_process_ast_node t [] with
  | error e =>
    simp only [execution_engine, hp] at h
    injection h with he
    subst he
    exact process_no_underflow t [] hp
  | ok st2 =>
    obtain ⟨v, rfl⟩ := process_ok_cons t [] st2 hp
    simp only [execution_engine, hp] at h
    exact absurd h (by simp)

/-- Witness for C7's inner implication at the tree of `1 + 2`. -/
theorem C7_underflow_witness :
    ((execution_engine (some (Ast.binop .add (.num 1) (.num 2))) []).1 ≠
      .error .stack_underflow) ∧
    (∃ v : Int, ([3] : List Int) = v :: []) :=
  ⟨(C7_underflow_unreachable (Ast.binop .add (.num 1) (.num 2))).1,
    (C7_underflow_unreachable (Ast.binop .add (.num 1) (.num 2))).2.1 [] [3] rfl⟩

/-- A right-leaning chain of additions: `1 + (1 + (1 + ... + 1))` with
`n + 1` leaves.  Its post-order traversal holds `n + 1` simultaneously
pending operands just before the deepest leaf is pushed
(`max_pending (right_chain n) = n + 1`). -/
def right_chain : Nat → Ast
  | 0 => .num 1
  | n + 1 => .binop .add (.num 1) (right_chain n)

/-- A tree whose left subtree divides by zero while its right subtree
needs `n + 2` pending operands; its evaluation aborts with
`division_by_zero` before any overflow check can fail. -/
def div_zero_then_chain (n : Nat) : Ast :=
  .binop .add (.binop .div (.num 1) (.num 0)) (right_chain n)

/-- Counterexample to C4 as stated.  `div_zero_then_chain 31` needs 33
simultaneously pending operands (more than 32), yet its evaluation fails
with `division_by_zero`, not `stack_overflow` — the claimed "exactly
when" equivalence is false; and `div_zero_then_chain 30` needs exactly 32
pending operands yet does not evaluate successfully. -/
theorem C4_claim_counterexample :
    max_pending (div_zero_then_chain 31) = 33 ∧
    (execution_engine (some (div_zero_then_chain 31)) []).1 =
      .error .division_by_zero ∧
    ¬((execution_engine (some (div_zero_then_chain 31)) []).1 =
        .error .stack_overflow ↔
      MAX_CALLSTACK_DEPTH < max_pending (div_zero_then_chain 31)) ∧
    max_pending (div_zero_then_chain 30) = 32 ∧
    (execution_engine (some (div_zero_then_chain 30)) []).1 =
      .error .division_by_zero ∧
    ¬(∃ v : Int, (execution_engine (some (div_zero_then_chain 30)) []).1 =
      .ok (some v)) := by
  refine ⟨rfl, rfl, ?_, rfl, rfl, ?_⟩
  · intro hiff
    have h2 := hiff.mpr (by decide)
    rw [show (execution_engine (some (div_zero_then_chain 31)) []).1 =
      .error .division_by_zero from rfl] at h2
    exact absurd h2 (by simp)
  · rintro ⟨v, hv⟩
    rw [show (execution_engine (some (div_zero_then_chain 30)) []).1 =
      .error .division_by_zero from rfl] at hv
    exact absurd hv (by simp)

/-- C4 as amended: for every AST whose evaluation does not abort with
`division_by_zero`, evaluation fails — and fails with `stack_overflow` —
exactly when the post-order traversal needs more than 32 simultaneously
pending operand values; needing at most 32 (in particular exactly 32) it
succeeds; and the 32-element capacity is a hard ceiling: the push of a
`Num` value fails whenever the stack already holds 32 elements. -/
theorem C4_amended_stack_bound (t : Ast)
    (hnd : (execution_engine (some t) []).1 ≠ .error .division_by_zero) :
    ((execution_engine (some t) []).1 = .error .stack_overflow ↔
      MAX_CALLSTACK_DEPTH < max_pending t) ∧
    (max_pending t ≤ MAX_CALLSTACK_DEPTH →
      ∃ v : Int, (execution_engine (some t) []).1 = .ok (some v)) ∧
    (∀ (v : Int) (st : List Int), st.length = MAX_CALLSTACK_DEPTH →
      execution_engine_process_ast_node (.num v) st =
        .error .stack_overflow) := by
  have hproc : execution_engine_process_ast_node t [] ≠
      .error .division_by_zero := by
    intro hp
    apply hnd
    simp only [execution_engine, hp]
  refine ⟨⟨?_, ?_⟩, ?_, ?_⟩
  · intro h
    by_contra hle
    push_neg at hle
    rcases process_ok_of_bound t [] (by simpa using hle) with ⟨v, hp⟩ | hp
    · simp only [execution_engine, hp] at h
      exact absurd h (by simp)
    · exact hproc hp
  · intro hgt
    rcases process_err_of_exceed t [] (by simp [MAX_CALLSTACK_DEPTH])
        (by simpa using hgt) with hp | hp
    · simp only [execution_engine, hp]
    · exact absurd hp hproc
  · intro hle
    rcases process_ok_of_bound t [] (by simpa using hle) with ⟨v, hp⟩ | hp
    · exact ⟨v, by simp only [execution_engine, hp]⟩
    · exact absurd hp hproc
  · intro v st hfull
    simp only [execution_engine_process_ast_node]
    rw [if_pos hfull]

/-- Witness for C4's amended theorem at `right_chain 31`, whose 32 leaves
need exactly 32 pending operands: it evaluates successfully (to 32),
while `right_chain 32`, needing 33, fails with `stack_overflow`. -/
theorem C4_amended_witness :
    ((execution_engine (some (right_chain 31)) []).1 ≠
      .error .division_by_zero) ∧
    (((execution_engine (some (right_chain 31)) []).1 =
        .error .stack_overflow ↔
      MAX_CALLSTACK_DEPTH < max_pending (right_chain 31)) ∧
      (max_pending (right_chain 31) ≤ MAX_CALLSTACK_DEPTH →
        ∃ v : Int, (execution_engine (some (right_chain 31)) []).1 =
          .ok (some v)) ∧
      (∀ (v : Int) (st : List Int), st.length = MAX_CALLSTACK_DEPTH →
        execution_engine_process_ast_node (.num v) st =
          .error .stack_overflow)) ∧
    (execution_engine (some (right_chain 31)) []).1 = .ok (some 32) ∧
    max_pending (right_chain 31) = 32 ∧
    (execution_engine (some (right_chain 32)) []).1 =
      .error .stack_overflow ∧
    max_pending (right_chain 32) = 33 := by
  have hv : (execution_engine (some (right_chain 31)) []).1 =
      .ok (some 32) := rfl
  have hnd : (execution_engine (some (right_chain 31)) []).1 ≠
      .error .division_by_zero := by
    rw [hv]; simp
  exact ⟨hnd, C4_amended_stack_bound (right_chain 31) hnd, hv, rfl, rfl, rfl⟩

/-! ### Lexeme shape -/

theorem map_cons_ok {α : Type} (tok : Token) (m : Except α (List Token))
    (toks : List Token) (h : m.map (tok :: ·) = .ok toks) :
    ∃ toks2, m = .ok toks2 ∧ toks = tok :: toks2 := by
  cases m with
  | error e => simp [Except.map] at h
  | ok ts =>
    refine ⟨ts, rfl, ?_⟩
    simp only [Except.map] at h
    exact (Except.ok.injEq _ _ ▸ h).symm

theorem strndup_c_cons_pos (c : Char) (cs : List Char) (n : Nat)
    (hn : 1 ≤ n) (hc : c ≠ '\x00') :
    strndup_c (c :: cs) n = c :: strndup_c cs (n - 1) := by
  cases n with
  | zero => omega
  | succ m => simp [strndup_c, hc]

theorem char_token_not_number (c : Char) (tok : Token)
    (h : char_token c = some tok) : ∀ lex, tok ≠ Token.number lex := by
  intro lex hne
  rw [hne] at h
  unfold char_token at h
  repeat' split at h
  all_goals simp at h

/-- Every `number` token the tokenizer emits has a lexeme that starts
with a decimal digit: the lexeme is `strndup` of the line suffix that
starts at the run's first digit, with a positive length (`lexeme_length`
starts at 1 and never decreases), and a digit is not a NUL byte. -/
theorem tokenize_aux_number_digit :
    ∀ (s pre : List Char) (lexlen skip : Nat) (toks : List Token),
      1 ≤ lexlen →
      tokenize_aux pre s lexlen skip = .ok toks →
      ∀ lex, Token.number lex ∈ toks →
        ∃ c2 cs2, lex = c2 :: cs2 ∧ is_digit_c c2 := by
  intro s
  induction s with
  | nil =>
    intro pre lexlen skip toks _ h lex hmem
    simp only [tokenize_aux] at h
    obtain rfl : ([] : List Token) = toks := Except.ok.injEq _ _ ▸ h
    simp at hmem
  | cons c cs ih =>
    intro pre lexlen skip toks hll h lex hmem
    unfold tokenize_aux at h
    split at h
    · exact ih _ _ _ _ hll h lex hmem
    · split at h
      · exact ih _ _ _ _ hll h lex hmem
      · split at h
        · rename_i tok htok
          obtain ⟨toks2, ht, rfl⟩ := map_cons_ok _ _ _ h
          rcases List.mem_cons.mp hmem with heq | hmem2
          · exact absurd heq.symm (char_token_not_number c tok htok lex)
          · exact ih _ _ _ _ hll ht lex hmem2
        · split at h
          · rename_i hdig
            obtain ⟨toks2, ht, rfl⟩ := map_cons_ok _ _ _ h
            rcases List.mem_cons.mp hmem with heq | hmem2
            · have hc0 : c ≠ '\x00' := by
                intro h0
                rw [h0] at hdig
                exact absurd hdig (by decide)
              have hlex : lex = strndup_c (c :: cs)
                  (lexlen + (1 + (cs.takeWhile is_digit_c).length) - 1) := by
                simpa using heq
              refine ⟨c, strndup_c cs
                (lexlen + (1 + (cs.takeWhile is_digit_c).length) - 1 - 1),
                ?_, hdig⟩
              rw [hlex, strndup_c_cons_pos c cs _ (by omega) hc0]
            · exact ih _ _ _ _ (by omega) ht lex hmem2
          · exact absurd h (by simp)

theorem is_space_c_false_of_digit (c : Char) (hd : is_digit_c c) :
    is_space_c c = false := by
  by_contra hsp
  rw [Bool.not_eq_false] at hsp
  simp only [is_space_c, Bool.or_eq_true, decide_eq_true_eq] at hsp
  rcases hsp with ((((h1 | h1) | h1) | h1) | h1) | h1 <;>
    rw [h1] at hd <;> exact absurd hd (by decide)

theorem char_token_digit_none (c : Char) (hd : is_digit_c c) :
    char_token c = none := by
  have hne : ∀ d : Char, ¬(is_digit_c d = true) → c ≠ d := by
    intro d hnd h
    rw [h] at hd
    exact hnd hd
  simp [char_token, hne eof_marker (by decide), hne '+' (by decide),
    hne '-' (by decide), hne '*' (by decide), hne '/' (by decide),
    hne '(' (by decide), hne ')' (by decide), hne '\n' (by decide)]

/-- The tokenizer's one-step unfolding at a non-empty suffix, usable for
rewriting one occurrence at a time. -/
theorem tokenize_aux_cons_eq (pre : List Char) (c : Char) (cs : List Char)
    (lexlen skip : Nat) :
    tokenize_aux pre (c :: cs) lexlen skip =
      if 0 < skip then
        tokenize_aux (c :: pre) cs lexlen (skip - 1)
      else if is_space_c c && c ≠ '\n' then
        tokenize_aux (c :: pre) cs lexlen 0
      else
        match char_token c with
        | some tok => (tokenize_aux (c :: pre) cs lexlen 0).map (tok :: ·)
        | none =>
          if is_digit_c c then
            (tokenize_aux (c :: pre) cs
                (lexlen + (1 + (cs.takeWhile is_digit_c).length) - 1)
                (1 + (cs.takeWhile is_digit_c).length - 1)).map
              (Token.number (strndup_c (c :: cs)
                (lexlen + (1 + (cs.takeWhile is_digit_c).length) - 1)) :: ·)
          else .error (lex_error_diag pre c cs) := rfl

/-- In skip mode the tokenizer walks over the already-recognised digit
run one character at a time, emitting nothing. -/
theorem tokenize_aux_skip_digits :
    ∀ (ds pre rest : List Char) (ll : Nat),
      tokenize_aux pre (ds ++ rest) ll ds.length =
        tokenize_aux (ds.reverse ++ pre) rest ll 0 := by
  intro ds
  induction ds with
  | nil => intro pre rest ll; rfl
  | cons d ds ih =>
    intro pre rest ll
    rw [List.cons_append, tokenize_aux_cons_eq]
    rw [if_pos (by simp)]
    simp only [List.length_cons, Nat.add_sub_cancel]
    rw [ih (d :: pre) rest ll]
    simp [List.append_assoc]

/-- One step of the tokenizer at the first character of a digit run. -/
theorem tokenize_aux_digit_step (pre : List Char) (c : Char)
    (cs : List Char) (ll : Nat) (hdc : is_digit_c c) :
    tokenize_aux pre (c :: cs) ll 0 =
      (tokenize_aux (c :: pre) cs
          (ll + (1 + (cs.takeWhile is_digit_c).length) - 1)
          (1 + (cs.takeWhile is_digit_c).length - 1)).map
        (Token.number (strndup_c (c :: cs)
          (ll + (1 + (cs.takeWhile is_digit_c).length) - 1)) :: ·) := by
  have hsp : is_space_c c = false := is_space_c_false_of_digit c hdc
  rw [tokenize_aux_cons_eq]
  rw [if_neg (lt_irrefl 0), if_neg (by simp [hsp]),
    char_token_digit_none c hdc]
  exact if_pos hdc

theorem takeWhile_digits_append_newline :
    ∀ ds : List Char, (∀ c ∈ ds, is_digit_c c) →
      (ds ++ ['\n']).takeWhile is_digit_c = ds := by
  intro ds
  induction ds with
  | nil => intro _; rfl
  | cons d ds ih =>
    intro h
    rw [List.cons_append, List.takeWhile_cons, if_pos (h d (by simp)),
      ih (fun c hc => h c (by simp [hc]))]

theorem takeWhile_ne_nul_digits :
    ∀ l : List Char, (∀ c ∈ l, is_digit_c c) →
      l.takeWhile (· ≠ '\x00') = l := by
  intro l
  induction l with
  | nil => intro _; rfl
  | cons d ds ih =>
    intro h
    have hd0 : d ≠ '\x00' := by
      intro h0
      have hd := h d (by simp)
      rw [h0] at hd
      exact absurd hd (by decide)
    rw [List.takeWhile_cons, if_pos (by simpa using hd0),
      ih (fun c hc => h c (by simp [hc]))]

/-- A line holding one digit run alone tokenizes to exactly one `Number`
token whose lexeme is that run, followed by the end-of-expression token:
with a single number on the line, `lexeme_length` equals the run's length
and the captured lexeme is exact. -/
theorem tokenize_digits_alone (D : List Char) (hne : D ≠ [])
    (hdig : ∀ c ∈ D, is_digit_c c) :
    tokenize_source_line_and_add_to_list (D ++ ['\n']) =
      .ok [Token.number D, Token.end_of_expression] := by
  obtain ⟨c, ds, rfl⟩ : ∃ c ds, D = c :: ds := by
    cases D with
    | nil => exact absurd rfl hne
    | cons c ds => exact ⟨c, ds, rfl⟩
  have hdc : is_digit_c c := hdig c (by simp)
  have hds : ∀ x ∈ ds, is_digit_c x := fun x hx => hdig x (by simp [hx])
  unfold tokenize_source_line_and_add_to_list
  rw [List.cons_append, tokenize_aux_digit_step [] c (ds ++ ['\n']) 1 hdc,
    takeWhile_digits_append_newline ds hds]
  have h1 : 1 + (1 + ds.length) - 1 = ds.length + 1 := by omega
  have h2 : 1 + ds.length - 1 = ds.length := by omega
  rw [h1, h2]
  have hstr : strndup_c (c :: (ds ++ ['\n'])) (ds.length + 1) = c :: ds := by
    simp only [strndup_c, List.take_succ_cons, List.take_left]
    exact takeWhile_ne_nul_digits (c :: ds) hdig
  rw [hstr, tokenize_aux_skip_digits ds [c] ['\n'] (ds.length + 1)]
  rfl

/-- C5 fails on the code: on the line `12 34`, the second `Number`
token's captured lexeme is `"34\n"`, not the maximal digit run `"34"` at
that position — `lexeme_length` is never reset between tokens, so the
`strndup` for the second number copies 2 (first run) + 2 (second run) - 1
= 3 bytes, running past the digit run into the newline.  The claim's
single-number part does hold: a line holding one digit run `D` alone
yields one `Number` token whose lexeme equals `D` exactly (last
conjunct). -/
theorem C5_lexeme_bug_eval :
    tokenize_source_line_and_add_to_list "12 34\n".data =
      .ok [Token.number ['1', '2'], Token.number ['3', '4', '\n'],
        Token.end_of_expression] ∧
    ("12 34\n".data.drop 3).takeWhile is_digit_c = ['3', '4'] ∧
    (['3', '4', '\n'] : List Char) ≠ ['3', '4'] ∧
    (∀ D : List Char, D ≠ [] → (∀ c ∈ D, is_digit_c c) →
      tokenize_source_line_and_add_to_list (D ++ ['\n']) =
        .ok [Token.number D, Token.end_of_expression]) :=
  ⟨rfl, rfl, by decide, tokenize_digits_alone⟩

/-- C8 fails on the code: on the line `123456&89012` the offending `&`
sits at index 6, the snippet window is indices 1..11, but the snippet
line prints only indices 1..10 (`for (j = i+1; j < snippet_end; j++)` —
at most 4 characters after the fault, not 5) while the marker line prints
a mark for every index 1..11 inclusive — 11 marks under a 10-character
snippet, so the tilde/caret line is not aligned with the snippet and has
5 tildes after the caret against 4 context characters above them. -/
theorem C8_snippet_bug_eval :
    tokenize_source_line_and_add_to_list "123456&89012\n".data =
      .error ⟨'&', 6, 1, 11, "23456&8901".data, "~~~~~^~~~~~".data⟩ ∧
    ("23456&8901".data).length = 10 ∧
    ("~~~~~^~~~~~".data).length = 11 :=
  ⟨rfl, rfl, rfl⟩

theorem digits_val_aux_nonneg :
    ∀ (l : List Char) (a : Int), 0 ≤ a → (∀ c ∈ l, is_digit_c c) →
      0 ≤ l.foldl (fun a c => 10 * a + ((c.toNat : Int) - 48)) a := by
  intro l
  induction l with
  | nil => intro a ha _; simpa using ha
  | cons d ds ih =>
    intro a ha h
    simp only [List.foldl_cons]
    apply ih
    · have hd := h d (by simp)
      simp only [is_digit_c, Bool.and_eq_true, decide_eq_true_eq] at hd
      have h48 : 48 ≤ d.toNat := hd.1
      have h48i : (48 : Int) ≤ (d.toNat : Int) := by exact_mod_cast h48
      omega
    · exact fun c hc => h c (by simp [hc])

/-- The longest-leading-digit-prefix value of any string is never
negative: the prefix holds only digit characters. -/
theorem digit_prefix_val_nonneg (s : List Char) :
    0 ≤ digit_prefix_val s :=
  digits_val_aux_nonneg (s.takeWhile is_digit_c) 0 le_rfl
    (fun _ hc => List.mem_takeWhile_imp hc)

/-- The `long → int` narrowing is the identity on values already
representable as a 32-bit `int`. -/
theorem int_of_long_eq_self (v : Int) (h0 : 0 ≤ v)
    (h1 : v < 2147483648) : int_of_long v = v := by
  unfold int_of_long
  rw [Int.emod_eq_of_lt (by omega) (by omega)]
  omega

/-- Counterexample to C10 as stated: the line `9999999999` (one digit run
whose base-10 value exceeds `INT_MAX = 2147483647`) tokenizes to a single
`Number` token, but the value the program stores — and prints — is
1410065407 (the `long` 9999999999 narrowed to 32-bit `int`), not the
digit-prefix value 9999999999.  The last conjunct shows strtol's
`LONG_MAX` clamping as well: twenty nines exceed `LONG_MAX`, clamp to it,
and narrow to -1. -/
theorem C10_claim_counterexample :
    tokenize_source_line_and_add_to_list "9999999999\n".data =
      .ok [Token.number "9999999999".data, Token.end_of_expression] ∧
    str_to_int "9999999999".data = 1410065407 ∧
    digit_prefix_val "9999999999".data = 9999999999 ∧
    run_line "9999999999\n".data = .ok (some 1410065407) ∧
    (1410065407 : Int) ≠ 9999999999 ∧
    run_line "99999999999999999999\n".data = .ok (some (-1)) :=
  ⟨rfl, rfl, rfl, rfl, by decide, rfl⟩

/-- C10 as amended: for every `Number` token the tokenizer hands to the
parser whose lexeme's longest leading digit prefix has base-10 value
representable in the `int` leaf (at most `INT_MAX = 2147483647`), the
value `parser_parse_unit_expression` stores in the `Num` leaf equals that
digit-prefix value (`strtol` stops at the first non-digit, the clamp and
the `long → int` narrowing are the identity in range) — so the evaluated
result depends only on the digit run that began the token even when the
stored lexeme carries extra trailing characters. -/
theorem C10_amended_value_digit_prefix (line : List Char)
    (toks : List Token) (lex : List Char)
    (htok : tokenize_source_line_and_add_to_list line = .ok toks)
    (hmem : Token.number lex ∈ toks)
    (hbound : digit_prefix_val lex ≤ 2147483647) :
    (∀ (fuel : Nat) (rest : List Token),
      parser_parse_unit_expression (fuel + 1) (.number lex) rest =
        .ok (.num (digit_prefix_val lex),
          parser_get_next_token (.number lex) rest)) ∧
    str_to_int lex = digit_prefix_val lex := by
  obtain ⟨c, cs, rfl, hd⟩ :=
    tokenize_aux_number_digit line [] 1 0 toks le_rfl htok lex hmem
  have hns : is_space_c c = false := is_space_c_false_of_digit c hd
  have hnm : c ≠ '-' := by
    intro h1
    rw [h1] at hd
    exact absurd hd (by decide)
  have hnp : c ≠ '+' := by
    intro h1
    rw [h1] at hd
    exact absurd hd (by decide)
  have hraw : strtol_c (c :: cs) = digit_prefix_val (c :: cs) := by
    simp only [strtol_c, digit_prefix_val, List.dropWhile_cons, hns,
      Bool.false_eq_true, if_false]
    rw [if_neg hnm, if_neg hnp]
    exact min_eq_left (le_trans hbound (by norm_num [LONG_MAX]))
  have hs : str_to_int (c :: cs) = digit_prefix_val (c :: cs) := by
    unfold str_to_int
    rw [hraw]
    exact int_of_long_eq_self _ (digit_prefix_val_nonneg (c :: cs))
      (by omega)
  refine ⟨fun fuel rest => ?_, hs⟩
  rw [← hs]
  rfl

/-- Witness for the amended C10 at the second (bug-affected) number token
of the line `12 34`: its lexeme is `"34\n"`, its digit-prefix value 34 is
in range, and the stored value is 34. -/
theorem C10_amended_witness :
    (∀ (fuel : Nat) (rest : List Token),
      parser_parse_unit_expression (fuel + 1)
          (.number ['3', '4', '\n']) rest =
        .ok (.num (digit_prefix_val ['3', '4', '\n']),
          parser_get_next_token (.number ['3', '4', '\n']) rest)) ∧
    str_to_int ['3', '4', '\n'] = digit_prefix_val ['3', '4', '\n'] :=
  C10_amended_value_digit_prefix "12 34\n".data
    [Token.number ['1', '2'], Token.number ['3', '4', '\n'],
      Token.end_of_expression]
    ['3', '4', '\n'] rfl (by simp) (by decide)

end Calculator
